import Mathlib

/-!
Verification of a Chifir virtual machine toolkit: a shallow embedding of
the interpreter (`computer.rs`), the assembler (`compiler.rs`) and the
Sixel pixel encoder (`sixel.rs`), together with theorems settling the
frozen claims about the natural-language specification.

Machine integers are modelled as `Nat` with explicit reduction modulo
`2^32` exactly where the Rust `u32` arithmetic wraps (release-profile
semantics).  Fallible operations (the two panic sites inside `render`)
are modelled with `Option`: `none` is a panic.
-/

namespace Chifir

/-- `2^32`, the modulus of the 32-bit machine words. -/
def U : Nat := 4294967296

/-! ## Memory: a grow-on-access vector of 32-bit words

`read`/`write` in `computer.rs` first `resize(index + 1, 0)` whenever the
index is past the end, then index into the vector. -/

/-- `Vec::resize(i + 1, 0)` when `i` is out of range, identity otherwise. -/
def memResize (m : List Nat) (i : Nat) : List Nat :=
  if i < m.length then m else m ++ List.replicate (i + 1 - m.length) 0

/-- Total lookup: the value of cell `i`, zero for cells never materialized. -/
def memGet (m : List Nat) (i : Nat) : Nat :=
  m.getD i 0

/-- `Computer::read`: grow the vector to cover `i`, then return `memory[i]`
together with the grown vector. -/
def readMem (m : List Nat) (i : Nat) : Nat × List Nat :=
  let m' := memResize m i
  (m'.getD i 0, m')

/-- `Computer::write`: grow the vector to cover `i`, then set `memory[i]`. -/
def writeMem (m : List Nat) (i : Nat) (v : Nat) : List Nat :=
  (memResize m i).set i v

theorem getD_replicate_zero (k n : Nat) :
    (List.replicate k (0 : Nat)).getD n 0 = 0 := by
  rcases Nat.lt_or_ge n k with h | h
  · rw [List.getD_eq_getElem _ _ (by simpa using h), List.getElem_replicate]
  · exact List.getD_eq_default _ _ (by simpa using h)

theorem getD_set_self (l : List Nat) (i v : Nat) (h : i < l.length) :
    (l.set i v).getD i 0 = v := by
  rw [List.getD_eq_getElem _ _ (by simpa using h), List.getElem_set_self]

theorem getD_set_ne (l : List Nat) (i j v : Nat) (h : j ≠ i) :
    (l.set i v).getD j 0 = l.getD j 0 := by
  rcases Nat.lt_or_ge j l.length with hj | hj
  · rw [List.getD_eq_getElem _ _ (by simpa using hj),
      List.getD_eq_getElem _ _ hj, List.getElem_set_ne (by omega)]
  · rw [List.getD_eq_default _ _ (by simpa using hj),
      List.getD_eq_default _ _ hj]

@[simp]
theorem length_memResize (m : List Nat) (i : Nat) :
    (memResize m i).length = max m.length (i + 1) := by
  unfold memResize
  split
  · omega
  · simp
    omega

@[simp]
theorem memGet_memResize (m : List Nat) (i j : Nat) :
    memGet (memResize m i) j = memGet m j := by
  unfold memResize memGet
  split
  · rfl
  · rcases Nat.lt_or_ge j m.length with h | h
    · exact List.getD_append _ _ _ _ h
    · rw [List.getD_append_right _ _ _ _ h, getD_replicate_zero,
        List.getD_eq_default _ _ h]

@[simp]
theorem readMem_fst (m : List Nat) (i : Nat) :
    (readMem m i).1 = memGet m i := by
  show memGet (memResize m i) i = memGet m i
  simp

@[simp]
theorem readMem_snd (m : List Nat) (i : Nat) :
    (readMem m i).2 = memResize m i := rfl

theorem lt_length_readMem (m : List Nat) (i : Nat) :
    i < (readMem m i).2.length := by
  rw [readMem_snd, length_memResize]
  omega

@[simp]
theorem length_writeMem (m : List Nat) (i : Nat) (v : Nat) :
    (writeMem m i v).length = max m.length (i + 1) := by
  unfold writeMem; simp

@[simp]
theorem memGet_writeMem_self (m : List Nat) (i : Nat) (v : Nat) :
    memGet (writeMem m i v) i = v := by
  unfold writeMem memGet
  exact getD_set_self _ _ _ (by rw [length_memResize]; omega)

theorem memGet_writeMem_ne (m : List Nat) (i j : Nat) (v : Nat) (h : j ≠ i) :
    memGet (writeMem m i v) j = memGet m j := by
  unfold writeMem memGet
  rw [getD_set_ne _ _ _ _ h]
  exact memGet_memResize m i j

/-! ## The interpreter state (`Computer` in `computer.rs`)

The bound I/O streams are modelled by their observable behaviour during one
call: `input = none` means no reader is bound, `some none` a bound reader
whose `read_to_end` returns `Err`, `some (some bs)` a bound reader that
yields exactly the bytes `bs`.  `output = none` means no writer is bound,
`some ok` a bound writer whose `write`/`flush` succeed iff `ok`; a failed
write is `unwrap`ped in the source, i.e. a panic. -/

structure Computer where
  memory : List Nat
  counter : Nat
  input : Option (Option (List Nat))
  output : Option Bool
  keyboard : Option Nat
  display_address : Nat
  display_width : Nat
  display_height : Nat
  display : List Nat
  read_position : Nat
deriving DecidableEq

/-- `Computer::new()`. -/
def Computer.new : Computer where
  memory := []
  counter := 0
  input := none
  output := none
  keyboard := none
  display_address := 1048576
  display_width := 512
  display_height := 684
  display := []
  read_position := 0

/-- `Computer::load` / `Computer::load_from_slice`: replace memory with the
given words and reset the program counter to zero. -/
def Computer.load (s : Computer) (ws : List Nat) : Computer :=
  { s with memory := ws, counter := 0 }

/-- `termion::cursor::Goto(1, 1)`, the bytes of `ESC [ 1 ; 1 H`. -/
def homeEscape : List Nat := [27, 91, 49, 59, 49, 72]

/-- `sixel::begin()`, the bytes of `ESC P q`. -/
def sixelBeginBytes : List Nat := [27, 80, 113]

/-- `sixel::end()`, the bytes of `ESC backslash`. -/
def sixelEndBytes : List Nat := [27, 92]

/-- One byte of `sixel::from`: fold over `y ∈ [0,6)`, setting bit `y` when
the window cell `x + (row + y) * width` is in range and nonzero. -/
def sixelByte (mem : List Nat) (w row x : Nat) : Nat :=
  (List.range 6).foldl
    (fun byte y =>
      let offset := x + (row + y) * w
      if offset < mem.length then
        if mem.getD offset 0 > 0 then byte ||| (1 <<< y) else byte
      else byte)
    0

/-- The band loop of `sixel::from`: `while row < height` stepping by 6. -/
def sixelRows (mem : List Nat) (w h : Nat) (border : Bool) (row : Nat) :
    List Nat :=
  if row < h then
    ((if border then [126] else []) ++
      (List.range w).map (fun x => sixelByte mem w row x + 63) ++
      (if border then [126] else []) ++ [36, 45]) ++
    sixelRows mem w h border (row + 6)
  else []
termination_by h - row
decreasing_by omega

/-- `sixel::from(memory, width, height, border)` as a byte list. -/
def sixelFrom (mem : List Nat) (w h : Nat) (border : Bool) : List Nat :=
  (if border then List.replicate (w + 2) 95 ++ [36, 45] else []) ++
  sixelRows mem w h border 0 ++
  (if border then List.replicate (w + 2) 64 ++ [36, 45] else [])

/-- `Computer::render`.  `end` is the `u32` sum `start + width * height`
(wrapping); the slice `memory[start..end]` panics when `end < start`
(`none`), and the `unwrap` on a failing bound writer panics too. -/
def render (s : Computer) : Option Computer :=
  let width := s.display_width
  let height := s.display_height
  let start := s.display_address
  let stop := (start + (width * height) % U) % U
  let m1 := (readMem s.memory start).2
  let m2 := (readMem m1 stop).2
  if stop < start then none
  else
    let window := (m2.drop start).take (stop - start)
    let frame := homeEscape ++ sixelBeginBytes ++
      sixelFrom window width height true ++ sixelEndBytes
    let s' := { s with memory := m2, display := frame, read_position := 0 }
    match s.output with
    | some true => some s'
    | some false => none
    | none => some s'

/-- `Computer::exec`: dispatch on the opcode.  `a`, `b`, `c` are the raw
operand words fetched by `step`. -/
def exec (s : Computer) (opcode a b c : Nat) : Option Computer :=
  match opcode with
  | 0 => some s
  | 1 =>
    let r := readMem s.memory a
    some { s with memory := r.2, counter := r.1 }
  | 2 =>
    let rb := readMem s.memory b
    if rb.1 = 0 then
      let ra := readMem rb.2 a
      some { s with memory := ra.2, counter := ra.1 }
    else
      some { s with memory := rb.2, counter := (s.counter + 4) % U }
  | 3 =>
    some { s with memory := writeMem s.memory a s.counter,
                  counter := (s.counter + 4) % U }
  | 4 =>
    let rb := readMem s.memory b
    some { s with memory := writeMem rb.2 a rb.1,
                  counter := (s.counter + 4) % U }
  | 5 =>
    let rb := readMem s.memory b
    let rb2 := readMem rb.2 rb.1
    some { s with memory := writeMem rb2.2 a rb2.1,
                  counter := (s.counter + 4) % U }
  | 6 =>
    let ra := readMem s.memory a
    let rb := readMem ra.2 b
    some { s with memory := writeMem rb.2 rb.1 ra.1,
                  counter := (s.counter + 4) % U }
  | 7 =>
    let rb := readMem s.memory b
    let rc := readMem rb.2 c
    some { s with memory := writeMem rc.2 a ((rb.1 + rc.1) % U),
                  counter := (s.counter + 4) % U }
  | 8 =>
    let rb := readMem s.memory b
    let rc := readMem rb.2 c
    some { s with memory := writeMem rc.2 a ((rb.1 % U + U - rc.1 % U) % U),
                  counter := (s.counter + 4) % U }
  | 9 =>
    let rb := readMem s.memory b
    let rc := readMem rb.2 c
    some { s with memory := writeMem rc.2 a ((rb.1 * rc.1) % U),
                  counter := (s.counter + 4) % U }
  | 10 =>
    let rb := readMem s.memory b
    let rc := readMem rb.2 c
    some { s with memory := writeMem rc.2 a (if rc.1 > 0 then rb.1 / rc.1 else 0),
                  counter := (s.counter + 4) % U }
  | 11 =>
    let rb := readMem s.memory b
    let rc := readMem rb.2 c
    some { s with memory := writeMem rc.2 a (if rc.1 > 0 then rb.1 % rc.1 else 0),
                  counter := (s.counter + 4) % U }
  | 12 =>
    let rb := readMem s.memory b
    let rc := readMem rb.2 c
    some { s with memory := writeMem rc.2 a (if rb.1 < rc.1 then 1 else 0),
                  counter := (s.counter + 4) % U }
  | 13 =>
    let rb := readMem s.memory b
    let rc := readMem rb.2 c
    some { s with memory := writeMem rc.2 a (U - 1 - (rb.1 % U &&& rc.1 % U)),
                  counter := (s.counter + 4) % U }
  | 14 =>
    (render s).map (fun t => { t with counter := (t.counter + 4) % U })
  | 15 =>
    let drained : List Nat :=
      match s.input with
      | some (some bs) => bs
      | _ => []
    let result : Option Nat :=
      match drained.getLast? with
      | some byte => some byte
      | none => s.keyboard
    match result with
    | some byte =>
      some { s with memory := writeMem s.memory a byte,
                    counter := (s.counter + 4) % U }
    | none => some s
  | 16 =>
    some { s with counter := (s.counter + 4) % U }
  | 17 =>
    some { s with display_address := a, display_width := b,
                  display_height := c, counter := (s.counter + 4) % U }
  | _ => some s

/-- `Computer::step`: fetch the opcode and the three operand words at the
program counter (each fetch may grow memory), then dispatch. -/
def step (s : Computer) : Option Computer :=
  let p := s.counter
  let r0 := readMem s.memory p
  let r1 := readMem r0.2 ((p + 1) % U)
  let r2 := readMem r1.2 ((p + 2) % U)
  let r3 := readMem r2.2 ((p + 3) % U)
  exec { s with memory := r3.2 } r0.1 r1.1 r2.1 r3.1

/-! ## The assembler (`Compiler` in `compiler.rs`)

Source text is modelled as the decoded character list (the `String` the
Rust code obtains after the UTF-8 check in `compile`). -/

/-- Rust `char::is_whitespace`: the Unicode `White_Space` property. -/
def isRustWhitespace (c : Char) : Bool :=
  c = '\t' || c = '\n' || c = '\x0B' || c = '\x0C' || c = '\r' ||
  c = ' ' || c = '\u0085' || c = '\u00A0' || c = '\u1680' ||
  ('\u2000' ≤ c && c ≤ '\u200A') || c = '\u2028' || c = '\u2029' ||
  c = '\u202F' || c = '\u205F' || c = '\u3000'

/-- `Compiler::split_lines`: split on LF, VT, FF, NEL, LS, PS and CR, a
CR directly followed by LF counting once; the character after a CR is
otherwise consumed into the next line; a trailing fragment is kept only
when non-empty. -/
def splitLinesGo : List Char → List Char → List (List Char)
  | [], line => if line.isEmpty then [] else [line]
  | c :: cs, line =>
    if c = '\n' || c = '\x0B' || c = '\x0C' || c = '\u0085' ||
        c = '\u2028' || c = '\u2029' then
      line :: splitLinesGo cs []
    else if c = '\r' then
      match cs with
      | [] => line :: splitLinesGo [] []
      | n :: cs' =>
        if n = '\n' then line :: splitLinesGo cs' []
        else line :: splitLinesGo cs' [n]
    else splitLinesGo cs (line ++ [c])

/-- The line-splitting pass applied to a whole source text. -/
def splitLines (src : List Char) : List (List Char) :=
  splitLinesGo src []

/-- Rust `str::trim`: drop leading and trailing Unicode whitespace. -/
def trimChars (l : List Char) : List Char :=
  ((l.dropWhile isRustWhitespace).reverse.dropWhile isRustWhitespace).reverse

/-- `Compiler::strip_comments`: trim each line, drop empty lines and lines
starting with `;`, cut each survivor at its first `;` and trim again.  The
result is the instruction stream (labels and code lines alike). -/
def stripComments (lines : List (List Char)) : List (List Char) :=
  lines.filterMap fun line =>
    let t := trimChars line
    if t.isEmpty then none
    else if t.head? = some ';' then none
    else some (trimChars (t.takeWhile (fun c => c ≠ ';')))

/-- A stream entry is a label line when it contains a `:`. -/
def isLabelLine (l : List Char) : Bool :=
  l.contains ':'

/-- The text strictly before the first `:` of a label line
(`instruction.split_at(index).0`). -/
def labelName (l : List Char) : List Char :=
  l.takeWhile (fun c => c ≠ ':')

/-- `HashMap::insert`, observed through `lookupLabel`: the newest binding
shadows the older ones. -/
def insertLabel (labels : List (List Char × Nat)) (name : List Char)
    (addr : Nat) : List (List Char × Nat) :=
  (name, addr) :: labels

/-- `HashMap::get` on the label table. -/
def lookupLabel : List (List Char × Nat) → List Char → Option Nat
  | [], _ => none
  | (n, a) :: rest, name => if n = name then some a else lookupLabel rest name

/-- `Compiler::compile_labels`: walk the instruction stream with a running
`u32` address, recording `name ↦ address` for each label line and adding 4
for each instruction line. -/
def compileLabelsGo : List (List Char) → List (List Char × Nat) → Nat →
    List (List Char × Nat)
  | [], labels, _ => labels
  | ins :: rest, labels, addr =>
    if isLabelLine ins then
      compileLabelsGo rest (insertLabel labels (labelName ins) addr) addr
    else
      compileLabelsGo rest labels ((addr + 4) % U)

/-- The label pass starting from the empty table and address 0. -/
def compile_labels (stream : List (List Char)) : List (List Char × Nat) :=
  compileLabelsGo stream [] 0

/-- `str::split_whitespace`: maximal runs of non-whitespace characters. -/
def tokenizeGo : List Char → List Char → List (List Char)
  | [], cur => if cur.isEmpty then [] else [cur.reverse]
  | c :: cs, cur =>
    if isRustWhitespace c then
      if cur.isEmpty then tokenizeGo cs [] else cur.reverse :: tokenizeGo cs []
    else tokenizeGo cs (c :: cur)

/-- Split an instruction line into its whitespace-separated tokens. -/
def tokenize (l : List Char) : List (List Char) :=
  tokenizeGo l []

/-- `char::to_digit(16)`. -/
def hexDigit? (c : Char) : Option Nat :=
  if '0' ≤ c ∧ c ≤ '9' then some (c.toNat - 48)
  else if 'a' ≤ c ∧ c ≤ 'f' then some (c.toNat - 87)
  else if 'A' ≤ c ∧ c ≤ 'F' then some (c.toNat - 55)
  else none

/-- Digit loop of `u32::from_str_radix(_, 16)` with the checked-overflow
failure (`none` once the accumulator leaves the `u32` range). -/
def fromHexGo : List Char → Nat → Option Nat
  | [], acc => some acc
  | c :: cs, acc =>
    match hexDigit? c with
    | some d => if acc * 16 + d < U then fromHexGo cs (acc * 16 + d) else none
    | none => none

/-- `u32::from_str_radix(s, 16)`: an optional leading `+`, then at least
one hex digit, value below `2^32`. -/
def fromHex (s : List Char) : Option Nat :=
  let t := if s.head? = some '+' then s.tail else s
  if t.isEmpty then none else fromHexGo t 0

/-- `Compiler::parse_opcode`: the mnemonic table, then hex, 0 on failure. -/
def parse_opcode (tok : Option (List Char)) : Nat :=
  match tok with
  | none => 0
  | some t =>
    if t = "brk".toList then 0
    else if t = "lpc".toList then 1
    else if t = "beq".toList then 2
    else if t = "spc".toList then 3
    else if t = "lea".toList then 4
    else if t = "lra".toList then 5
    else if t = "sra".toList then 6
    else if t = "add".toList then 7
    else if t = "sub".toList then 8
    else if t = "mul".toList then 9
    else if t = "div".toList then 10
    else if t = "mod".toList then 11
    else if t = "cmp".toList then 12
    else if t = "nad".toList then 13
    else if t = "drw".toList then 14
    else if t = "key".toList then 15
    else if t = "nop".toList then 16
    else if t = "cfv".toList then 17
    else (fromHex t).getD 0

/-- `Compiler::parse_operand`: label lookup first; otherwise `/`-prefixed
tokens are relative (leading slashes stripped, hex value plus the current
emission address as `u32`); otherwise plain hex; 0 on any parse failure
and for a missing token. -/
def parse_operand (labels : List (List Char × Nat))
    (operand : Option (List Char)) (p : Nat) : Nat :=
  match operand with
  | none => 0
  | some op =>
    match lookupLabel labels op with
    | some address => address
    | none =>
      if op.head? = some '/' then
        ((fromHex (op.dropWhile (fun c => c = '/'))).getD 0 + p) % U
      else
        (fromHex op).getD 0

/-- `Compiler::compile_bytecodes`: skip label lines; for each instruction
line emit exactly four words, the emission address being the output length
truncated to `u32`. -/
def compileBytecodesGo (labels : List (List Char × Nat)) :
    List (List Char) → List Nat → List Nat
  | [], out => out
  | ins :: rest, out =>
    if isLabelLine ins then compileBytecodesGo labels rest out
    else
      let p := out.length % U
      let toks := tokenize ins
      compileBytecodesGo labels rest
        (out ++ [parse_opcode toks[0]?, parse_operand labels toks[1]? p,
          parse_operand labels toks[2]? p, parse_operand labels toks[3]? p])

/-- `Compiler::compile` after the UTF-8 check: split lines, strip comments,
build the label table, emit the bytecodes. -/
def compile (src : List Char) : List Nat :=
  let stream := stripComments (splitLines src)
  compileBytecodesGo (compile_labels stream) stream []

/-- The number of non-label entries of an instruction stream. -/
def countNonLabel (stream : List (List Char)) : Nat :=
  (stream.filter (fun l => !isLabelLine l)).length

/-! ## Sequences of raw memory operations (for the memory-growth claim) -/

/-- A raw access to the interpreter memory: `Computer::read` or
`Computer::write`. -/
inductive MemOp where
  | rd (i : Nat)
  | wr (i : Nat) (v : Nat)
deriving DecidableEq

/-- Run a sequence of raw accesses, threading the grown vector. -/
def runOps : List MemOp → List Nat → List Nat
  | [], m => m
  | .rd i :: rest, m => runOps rest (readMem m i).2
  | .wr i v :: rest, m => runOps rest (writeMem m i v)

/-- Whether a raw access writes to cell `i`. -/
def writesTo (i : Nat) : MemOp → Bool
  | .rd _ => false
  | .wr j _ => j = i

theorem memGet_runOps (i : Nat) :
    ∀ (ops : List MemOp) (m : List Nat),
      (∀ op ∈ ops, writesTo i op = false) →
      memGet (runOps ops m) i = memGet m i := by
  intro ops
  induction ops with
  | nil => intro m _; rfl
  | cons op rest ih =>
    intro m h
    rcases op with j | ⟨j, v⟩
    · rw [runOps, ih _ (fun o ho => h o (List.mem_cons_of_mem _ ho))]
      simp
    · rw [runOps, ih _ (fun o ho => h o (List.mem_cons_of_mem _ ho))]
      have hj : j ≠ i := by
        have := h _ (List.mem_cons_self _ _)
        simpa [writesTo] using this
      exact memGet_writeMem_ne m j i v (fun he => hj he.symm)

/-! ## Claims C4, C10 -/

/-- C4: for every index `i` and memory state, `read(i)` and `write(i, v)`
are total (they are plain functions of this development) and leave the
memory length at least `i + 1`; and after any sequence of reads and
writes none of which writes cell `i`, reading a cell `i` that lies beyond
the initially materialized memory still returns 0. -/
theorem c4_memory_growth (m : List Nat) (i v : Nat) (ops : List MemOp)
    (hlen : m.length ≤ i) (hw : ∀ op ∈ ops, writesTo i op = false) :
    i + 1 ≤ (readMem m i).2.length ∧
    i + 1 ≤ (writeMem m i v).length ∧
    (readMem (runOps ops m) i).1 = 0 := by
  refine ⟨?_, ?_, ?_⟩
  · rw [readMem_snd, length_memResize]; omega
  · rw [length_writeMem]; omega
  · rw [readMem_fst, memGet_runOps i ops m hw]
    exact List.getD_eq_default _ _ hlen

/-- Witness for C4 at a concrete input: initial memory `[7]`, target cell
3, operations `write 2 5; read 0`. -/
theorem c4_memory_growth_witness :
    4 ≤ (readMem [7] 3).2.length ∧ 4 ≤ (writeMem [7] 3 9).length ∧
    (readMem (runOps [MemOp.wr 2 5, MemOp.rd 0] [7]) 3).1 = 0 :=
  c4_memory_growth [7] 3 9 [MemOp.wr 2 5, MemOp.rd 0] (by decide)
    (by decide)

/-- C10: `load` replaces the memory with the given words and resets the
program counter to zero, and changes nothing else: the display
configuration, the I/O bindings, the last-key register, the retained
display frame and its read cursor are untouched. -/
theorem c10_load_frame_effect (s : Computer) (ws : List Nat) :
    (s.load ws).memory = ws ∧ (s.load ws).counter = 0 ∧
    (s.load ws).input = s.input ∧ (s.load ws).output = s.output ∧
    (s.load ws).keyboard = s.keyboard ∧
    (s.load ws).display_address = s.display_address ∧
    (s.load ws).display_width = s.display_width ∧
    (s.load ws).display_height = s.display_height ∧
    (s.load ws).display = s.display ∧
    (s.load ws).read_position = s.read_position :=
  ⟨rfl, rfl, rfl, rfl, rfl, rfl, rfl, rfl, rfl, rfl⟩

/-! ## Claims C3, C5 -/

/-- C3: when the word fetched at the program counter is 0 or exceeds 17,
`step` succeeds, leaves the program counter unchanged, and changes no
memory cell's value (only the fetch may materialize zero cells). -/
theorem c3_halt_and_unknown (s : Computer)
    (h : memGet s.memory s.counter = 0 ∨ 17 < memGet s.memory s.counter) :
    ∃ s', step s = some s' ∧ s'.counter = s.counter ∧
      ∀ i, memGet s'.memory i = memGet s.memory i := by
  simp only [step, readMem_fst, readMem_snd, memGet_memResize]
  rcases h with h | h
  · rw [h]
    exact ⟨_, rfl, rfl, fun i => by simp⟩
  · obtain ⟨k, hk⟩ : ∃ k, memGet s.memory s.counter = k + 18 :=
      ⟨memGet s.memory s.counter - 18, by omega⟩
    rw [hk]
    exact ⟨_, rfl, rfl, fun i => by simp⟩

/-- Witness for C3: a program whose first word is the halt opcode 0. -/
theorem c3_halt_and_unknown_witness :
    ∃ s', step (Computer.load Computer.new [0, 5, 6, 7]) = some s' ∧
      s'.counter = 0 := by
  obtain ⟨s', h1, h2, _⟩ :=
    c3_halt_and_unknown (Computer.load Computer.new [0, 5, 6, 7])
      (Or.inl (by decide))
  exact ⟨s', h1, h2⟩

set_option maxHeartbeats 1000000 in
/-- C5: when the fetched opcode is 10 (`div`) or 11 (`mod`), `step`
advances the program counter by 4 and stores into `M[A]` the truncating
quotient (resp. remainder) of `M[B]` by `M[C]`, or 0 when `M[C]` is 0. -/
theorem c5_safe_div_mod (s : Computer) (o : Nat)
    (ho : o = 10 ∨ o = 11) (hop : memGet s.memory s.counter = o) :
    ∃ s', step s = some s' ∧
      s'.counter = (s.counter + 4) % U ∧
      memGet s'.memory (memGet s.memory ((s.counter + 1) % U)) =
        (if memGet s.memory (memGet s.memory ((s.counter + 3) % U)) = 0
         then 0
         else if o = 10 then
           memGet s.memory (memGet s.memory ((s.counter + 2) % U)) /
             memGet s.memory (memGet s.memory ((s.counter + 3) % U))
         else
           memGet s.memory (memGet s.memory ((s.counter + 2) % U)) %
             memGet s.memory (memGet s.memory ((s.counter + 3) % U))) := by
  simp only [step, readMem_fst, readMem_snd, memGet_memResize]
  rcases ho with ho | ho <;> subst ho
  · rw [hop]
    simp only [exec, readMem_fst, readMem_snd, memGet_memResize]
    refine ⟨_, rfl, rfl, ?_⟩
    rcases Nat.eq_zero_or_pos
      (memGet s.memory (memGet s.memory ((s.counter + 3) % U))) with hz | hz
    · simp [hz, memGet_writeMem_self]
    · simp [hz, hz.ne', memGet_writeMem_self]
  · rw [hop]
    simp only [exec, readMem_fst, readMem_snd, memGet_memResize]
    refine ⟨_, rfl, rfl, ?_⟩
    rcases Nat.eq_zero_or_pos
      (memGet s.memory (memGet s.memory ((s.counter + 3) % U))) with hz | hz
    · simp [hz, memGet_writeMem_self]
    · simp [hz, hz.ne', memGet_writeMem_self]

/-- Witness for C5: the divide-by-zero unit test `[10, 4, 5, 6, 1, 11, 0]`
stores 0 into `M[4]` and moves the counter to 4. -/
theorem c5_safe_div_mod_witness :
    ∃ s', step (Computer.load Computer.new [10, 4, 5, 6, 1, 11, 0]) = some s' ∧
      s'.counter = 4 ∧ memGet s'.memory 4 = 0 := by
  obtain ⟨s', h1, h2, h3⟩ :=
    c5_safe_div_mod (Computer.load Computer.new [10, 4, 5, 6, 1, 11, 0]) 10
      (Or.inl rfl) (by decide)
  refine ⟨s', h1, by simpa using h2, ?_⟩
  simpa using h3

/-! ## Claim C1 -/

/-- The byte the key opcode acts on: the final byte drained from a bound
reader when at least one byte arrived, otherwise the persistent last-key
value. -/
def keyObserved (s : Computer) : Option Nat :=
  match (match s.input with
         | some (some bs) => bs
         | _ => ([] : List Nat)).getLast? with
  | some byte => some byte
  | none => s.keyboard

/-- C1 is false as stated: stepping `[15, 1, 0, 0]` with a bound reader
yielding the single byte 113 writes 113 into `M[1]` and advances the
counter to 4, yet the persistent last-key register is NOT replaced with
the drained byte — it stays `none`. -/
theorem c1_key_counterexample :
    (step { Computer.load Computer.new [15, 1, 0, 0] with
            input := some (some [113]) }).map
        (fun t => (t.keyboard, memGet t.memory 1, t.counter)) =
      some (none, 113, 4) ∧
    (step { Computer.load Computer.new [15, 1, 0, 0] with
            input := some (some [113]) }).map Computer.keyboard ≠
      some (some 113) :=
  ⟨by decide, by decide⟩

/-- Executing the key opcode: `exec` writes the observed byte (if any)
into `M[A]` and advances the counter, or does nothing; the `keyboard`
field is never assigned. -/
theorem exec_key (s : Computer) (a b c : Nat) :
    exec s 15 a b c = some
      (match keyObserved s with
       | some byte => { s with memory := writeMem s.memory a byte,
                               counter := (s.counter + 4) % U }
       | none => s) := by
  simp only [exec, keyObserved]
  rcases s.input with _ | bso
  · rcases s.keyboard with _ | b <;> rfl
  · rcases bso with _ | bs
    · rcases s.keyboard with _ | b <;> rfl
    · rcases bs.getLast? with _ | byte
      · rcases s.keyboard with _ | b <;> rfl
      · rfl

@[simp]
theorem keyObserved_set_memory (s : Computer) (m : List Nat) :
    keyObserved { s with memory := m } = keyObserved s := rfl

set_option maxHeartbeats 1000000 in
/-- C1 (amended): executing the key opcode never touches the persistent
last-key register.  The byte it observes is the final byte drained from a
bound reader when one arrived, the persistent last-key otherwise; if that
observation exists it is written into `M[A]` (zero-extended) and the
counter advances by 4, and if it does not, the counter and all memory
values are unchanged. -/
theorem c1_key_amended (s : Computer)
    (hop : memGet s.memory s.counter = 15) :
    ∃ s', step s = some s' ∧ s'.keyboard = s.keyboard ∧
      (keyObserved s = none →
        s'.counter = s.counter ∧
        ∀ i, memGet s'.memory i = memGet s.memory i) ∧
      (∀ byte, keyObserved s = some byte →
        s'.counter = (s.counter + 4) % U ∧
        memGet s'.memory (memGet s.memory ((s.counter + 1) % U)) = byte) := by
  simp only [step, readMem_fst, readMem_snd, memGet_memResize]
  rw [hop, exec_key]
  simp only [keyObserved_set_memory]
  rcases hko : keyObserved s with _ | byte
  · refine ⟨_, rfl, rfl, fun _ => ⟨rfl, fun i => by simp⟩,
      fun byte hb => Option.noConfusion hb⟩
  · refine ⟨_, rfl, rfl, fun hn => Option.noConfusion hn, fun b hb => ?_⟩
    obtain rfl : byte = b := Option.some.inj hb
    exact ⟨rfl, by simp [memGet_writeMem_self]⟩

/-- Witness for the amended C1: the non-blocking unit test
`[15, 1, 0, 0]` with reader bytes `[8, 10, 13, 32]` stores 32 in `M[1]`,
moves the counter to 4 and leaves the last-key register clear. -/
theorem c1_key_amended_witness :
    ∃ s', step { Computer.load Computer.new [15, 1, 0, 0] with
        input := some (some [8, 10, 13, 32]) } = some s' ∧
      s'.keyboard = none ∧ s'.counter = 4 ∧ memGet s'.memory 1 = 32 := by
  obtain ⟨s', h1, h2, _, h4⟩ :=
    c1_key_amended { Computer.load Computer.new [15, 1, 0, 0] with
        input := some (some [8, 10, 13, 32]) } (by decide)
  obtain ⟨h5, h6⟩ := h4 32 (by decide)
  exact ⟨s', h1, h2, by simpa using h5, by simpa using h6⟩

/-! ## Claim C2 -/

/-- `exec` succeeds for every opcode provided the configured display
window does not wrap around the 32-bit address space and a bound writer
does not fail. -/
theorem exec_isSome (s : Computer) (o a b c : Nat)
    (hdisp : s.display_address +
      (s.display_width * s.display_height) % U < U)
    (hout : s.output ≠ some false) :
    (exec s o a b c).isSome = true := by
  rcases o with _|_|_|_|_|_|_|_|_|_|_|_|_|_|_|_|_|_|o
  · simp [exec]
  · simp [exec]
  · simp only [exec]
    split <;> simp
  · simp [exec]
  · simp [exec]
  · simp [exec]
  · simp [exec]
  · simp [exec]
  · simp [exec]
  · simp [exec]
  · simp [exec]
  · simp [exec]
  · simp [exec]
  · simp [exec]
  · -- opcode 14: drw
    simp only [exec, render]
    have hmod : (s.display_address +
        (s.display_width * s.display_height) % U) % U =
        s.display_address + (s.display_width * s.display_height) % U :=
      Nat.mod_eq_of_lt hdisp
    rw [hmod, if_neg (by omega)]
    rcases hob : s.output with _ | ob
    · simp
    · rcases ob with _ | _
      · exact absurd hob hout
      · simp
  · -- opcode 15: key
    rw [exec_key]
    simp
  · simp [exec]
  · simp [exec]
  · simp [exec]

/-- C2 is false as stated: `step` can panic.  Configuring the display via
`cfv` at base `2^32 - 1` with a 2×2 window and then executing `drw` makes
the wrapped slice end `(2^32 - 1) + 4 ≡ 3` smaller than the slice start,
and the slice `memory[start..end]` panics (modelled by `none`). -/
theorem c2_step_counterexample :
    (step (Computer.load Computer.new
      [17, 4294967295, 2, 2, 14, 0, 0, 0])).bind step = none := by
  decide

set_option maxHeartbeats 1000000 in
/-- C2 (amended): `step` is total — fetch, dispatch, mutate, without any
failure — for every state whose configured display window does not wrap
around the 32-bit address space and whose bound writer (if any) does not
return an error; the two excluded situations make the source panic (the
`memory[start..end]` slice and the `unwrap` on the writer). -/
theorem c2_step_total (s : Computer)
    (hdisp : s.display_address +
      (s.display_width * s.display_height) % U < U)
    (hout : s.output ≠ some false) :
    (step s).isSome = true := by
  simp only [step]
  exact exec_isSome _ _ _ _ _ (by simpa using hdisp) (by simpa using hout)

/-- Witness for the amended C2: a freshly loaded `nop` program with the
default display geometry steps successfully. -/
theorem c2_step_total_witness :
    (step (Computer.load Computer.new [16, 0, 0, 0])).isSome = true :=
  c2_step_total (Computer.load Computer.new [16, 0, 0, 0]) (by decide)
    (by decide)

/-! ## Claims C6, C7, C8: the assembler -/

/-- The running address the label pass carries after processing the given
entries, starting from `a`: label lines leave it, instruction lines add 4
in `u32`. -/
def addrAfter : List (List Char) → Nat → Nat
  | [], a => a
  | l :: ls, a => addrAfter ls (if isLabelLine l then a else (a + 4) % U)

theorem lookupLabel_compileLabelsGo_of_not_def (name : List Char) :
    ∀ (stream : List (List Char)) (acc : List (List Char × Nat)) (addr : Nat),
      (∀ l ∈ stream, isLabelLine l = true → labelName l ≠ name) →
      lookupLabel (compileLabelsGo stream acc addr) name =
        lookupLabel acc name := by
  intro stream
  induction stream with
  | nil => intro acc addr _; rfl
  | cons ins rest ih =>
    intro acc addr h
    by_cases hl : isLabelLine ins
    · rw [compileLabelsGo, if_pos hl,
        ih _ _ (fun l hm hla => h l (List.mem_cons_of_mem _ hm) hla)]
      have hne : labelName ins ≠ name := h ins (List.mem_cons_self _ _) hl
      simp [insertLabel, lookupLabel, hne]
    · rw [compileLabelsGo, if_neg hl]
      exact ih _ _ (fun l hm hla => h l (List.mem_cons_of_mem _ hm) hla)

theorem lookupLabel_compileLabelsGo_split (name : List Char) :
    ∀ (pre : List (List Char)) (e : List Char) (post : List (List Char))
      (acc : List (List Char × Nat)) (addr : Nat),
      isLabelLine e = true → labelName e = name →
      (∀ l ∈ post, isLabelLine l = true → labelName l ≠ name) →
      lookupLabel (compileLabelsGo (pre ++ e :: post) acc addr) name =
        some (addrAfter pre addr) := by
  intro pre
  induction pre with
  | nil =>
    intro e post acc addr he hn hpost
    rw [List.nil_append, compileLabelsGo, if_pos he,
      lookupLabel_compileLabelsGo_of_not_def name post _ _ hpost]
    simp [insertLabel, lookupLabel, hn, addrAfter]
  | cons l pre ih =>
    intro e post acc addr he hn hpost
    by_cases hl : isLabelLine l
    · rw [List.cons_append, compileLabelsGo, if_pos hl,
        ih e post _ _ he hn hpost, addrAfter, if_pos hl]
    · rw [List.cons_append, compileLabelsGo, if_neg hl,
        ih e post _ _ he hn hpost, addrAfter, if_neg hl]

theorem addrAfter_mod (pre : List (List Char)) :
    ∀ a, a < U → addrAfter pre a = (a + 4 * countNonLabel pre) % U := by
  induction pre with
  | nil =>
    intro a ha
    rw [addrAfter]
    simp [countNonLabel, Nat.mod_eq_of_lt ha]
  | cons l pre ih =>
    intro a ha
    by_cases hl : isLabelLine l
    · rw [addrAfter, if_pos hl, ih a ha]
      have : countNonLabel (l :: pre) = countNonLabel pre := by
        simp [countNonLabel, List.filter, hl]
      rw [this]
    · rw [addrAfter, if_neg hl, ih _ (Nat.mod_lt _ (by decide)),
        Nat.mod_add_mod]
      have : countNonLabel (l :: pre) = countNonLabel pre + 1 := by
        simp [countNonLabel, List.filter, hl]
      rw [this]
      congr 1
      omega

/-- C6: for every assembly source, every label name of the compiled label
table is bound to `4 ×` the number of non-label instruction-stream entries
before its last defining entry (which is the address of the next emitted
instruction, or the end address when no instruction follows); later
definitions of the same name overwrite earlier ones (they may occur
freely inside `pre`).  The bound `4·|pre| < 2^32` reflects the `u32`
address counter of the source. -/
theorem c6_label_addresses (src : List Char) (pre : List (List Char))
    (e : List Char) (post : List (List Char))
    (hsplit : stripComments (splitLines src) = pre ++ e :: post)
    (he : isLabelLine e = true)
    (hpost : ∀ l ∈ post, isLabelLine l = true → labelName l ≠ labelName e)
    (hfit : 4 * countNonLabel pre < U) :
    lookupLabel (compile_labels (stripComments (splitLines src)))
      (labelName e) = some (4 * countNonLabel pre) := by
  rw [hsplit]
  unfold compile_labels
  rw [lookupLabel_compileLabelsGo_split (labelName e) pre e post [] 0 he rfl
    hpost, addrAfter_mod pre 0 (by decide)]
  rw [Nat.zero_add, Nat.mod_eq_of_lt hfit]

/-- Witness for C6: the last-label-wins unit test `a:\n1 2 3 4\na:` binds
`a` to 4, the end address. -/
theorem c6_label_addresses_witness :
    lookupLabel (compile_labels (stripComments (splitLines
      "a:\n1 2 3 4\na:".toList))) (labelName ['a', ':']) = some 4 := by
  have h := c6_label_addresses "a:\n1 2 3 4\na:".toList
    [['a', ':'], "1 2 3 4".toList] ['a', ':'] [] (by decide) (by decide)
    (by decide) (by decide)
  exact h.trans (by decide)

/-- C7: operand resolution precedence of the assembler: a token bound in
the label table emits the label's address; otherwise a token beginning
with `/` emits its hex value (leading slashes stripped, 0 on parse
failure) plus the emission address, as `u32`; otherwise the token's hex
value (0 on parse failure); a missing token emits 0. -/
theorem c7_operand_resolution (labels : List (List Char × Nat))
    (tok : List Char) (p : Nat) :
    parse_operand labels none p = 0 ∧
    (∀ addr, lookupLabel labels tok = some addr →
      parse_operand labels (some tok) p = addr) ∧
    (lookupLabel labels tok = none → tok.head? = some '/' →
      parse_operand labels (some tok) p =
        ((fromHex (tok.dropWhile (fun c => c = '/'))).getD 0 + p) % U) ∧
    (lookupLabel labels tok = none → tok.head? ≠ some '/' →
      parse_operand labels (some tok) p = (fromHex tok).getD 0) := by
  refine ⟨rfl, fun addr h => ?_, fun h hs => ?_, fun h hs => ?_⟩
  · simp [parse_operand, h]
  · simp [parse_operand, h, hs]
  · simp [parse_operand, h, hs]

/-- Witness for C7 at concrete inputs: with the table `
{a ↦ 8}`, a missing
token emits 0, `a` emits 8, `/2` at emission address 4 emits 6, and `3`
emits 3. -/
theorem c7_operand_resolution_witness :
    parse_operand [(['a'], 8)] none 0 = 0 ∧
    parse_operand [(['a'], 8)] (some ['a']) 0 = 8 ∧
    parse_operand [(['a'], 8)] (some ['/', '2']) 4 = 6 ∧
    parse_operand [(['a'], 8)] (some ['3']) 4 = 3 := by
  refine ⟨(c7_operand_resolution [(['a'], 8)] ['a'] 0).1,
    (c7_operand_resolution [(['a'], 8)] ['a'] 0).2.1 8 (by decide), ?_, ?_⟩
  · exact ((c7_operand_resolution [(['a'], 8)] ['/', '2'] 4).2.2.1
      (by decide) (by decide)).trans (by decide)
  · exact ((c7_operand_resolution [(['a'], 8)] ['3'] 4).2.2.2
      (by decide) (by decide)).trans (by decide)

theorem compileBytecodesGo_length (labels : List (List Char × Nat)) :
    ∀ (stream : List (List Char)) (out : List Nat),
      (compileBytecodesGo labels stream out).length =
        out.length + 4 * countNonLabel stream := by
  intro stream
  induction stream with
  | nil => intro out; simp [compileBytecodesGo, countNonLabel]
  | cons ins rest ih =>
    intro out
    by_cases hl : isLabelLine ins
    · rw [compileBytecodesGo, if_pos hl, ih]
      have : countNonLabel (ins :: rest) = countNonLabel rest := by
        simp [countNonLabel, List.filter, hl]
      rw [this]
    · rw [compileBytecodesGo, if_neg hl, ih]
      have : countNonLabel (ins :: rest) = countNonLabel rest + 1 := by
        simp [countNonLabel, List.filter, hl]
      rw [this]
      simp
      omega

/-- C8: for every source text, the assembler's output has length exactly
`4 ×` the number of instruction-stream entries that are not labels (the
lines surviving comment stripping that contain no `:`); in particular it
is a multiple of 4. -/
theorem c8_output_width (src : List Char) :
    (compile src).length =
      4 * countNonLabel (stripComments (splitLines src)) ∧
    (compile src).length % 4 = 0 := by
  have h := compileBytecodesGo_length
    (compile_labels (stripComments (splitLines src)))
    (stripComments (splitLines src)) []
  have h1 : (compile src).length =
      4 * countNonLabel (stripComments (splitLines src)) := by
    simpa [compile] using h
  exact ⟨h1, by omega⟩

/-! ## Claim C9: the pixel encoder -/

/-- Claim-side formulation: the starting rows of the 6-high bands,
`0, 6, 12, …` while below the height. -/
def bandStarts (h row : Nat) : List Nat :=
  if row < h then row :: bandStarts h (row + 6) else []
termination_by h - row
decreasing_by omega

/-- Claim-side formulation of one emitted byte: 63 plus the byte whose
bit `y ∈ [0,6)` is set exactly when the window cell `x + (row+y)·width`
is nonzero, out-of-range cells reading as zero. -/
def sixelByteSpec (mem : List Nat) (w row x : Nat) : Nat :=
  63 + ((List.range 6).map
    (fun y => if memGet mem (x + (row + y) * w) ≠ 0 then 2 ^ y else 0)).sum

set_option maxHeartbeats 1000000 in
theorem sixelByte_add_63 (mem : List Nat) (w row x : Nat) :
    sixelByte mem w row x + 63 = sixelByteSpec mem w row x := by
  have hstep : ∀ (byte y : Nat),
      (if x + (row + y) * w < mem.length then
        (if mem.getD (x + (row + y) * w) 0 > 0 then byte ||| (1 <<< y)
         else byte)
       else byte) =
      (if memGet mem (x + (row + y) * w) ≠ 0 then byte ||| (1 <<< y)
       else byte) := by
    intro byte y
    by_cases hz : memGet mem (x + (row + y) * w) = 0
    · conv_rhs => rw [if_neg (show ¬memGet mem (x + (row + y) * w) ≠ 0 from
        fun hne => hne hz)]
      unfold memGet at hz
      rcases Nat.lt_or_ge (x + (row + y) * w) mem.length with h | h
      · rw [if_pos h, if_neg (by omega)]
      · rw [if_neg (Nat.not_lt.mpr h)]
    · conv_rhs => rw [if_pos hz]
      have hlt : x + (row + y) * w < mem.length := by
        by_contra hge
        exact hz (List.getD_eq_default _ _ (Nat.le_of_not_lt hge))
      rw [if_pos hlt, if_pos (show mem.getD (x + (row + y) * w) 0 > 0 from
        Nat.pos_of_ne_zero hz)]
  unfold sixelByte sixelByteSpec
  have hr : List.range 6 = [0, 1, 2, 3, 4, 5] := rfl
  rw [hr]
  simp only [List.foldl_cons, List.foldl_nil, List.map_cons, List.map_nil,
    List.sum_cons, List.sum_nil]
  rw [hstep, hstep, hstep, hstep, hstep, hstep]
  split_ifs <;> decide

theorem sixelRows_false_eq (mem : List Nat) (w h row : Nat) :
    sixelRows mem w h false row =
      (bandStarts h row).flatMap (fun r =>
        (List.range w).map (fun x => sixelByteSpec mem w r x) ++ [36, 45]) := by
  by_cases hlt : row < h
  · rw [sixelRows, bandStarts, if_pos hlt, if_pos hlt, List.flatMap_cons,
      sixelRows_false_eq mem w h (row + 6)]
    have hmap : (List.range w).map (fun x => sixelByte mem w row x + 63) =
        (List.range w).map (fun x => sixelByteSpec mem w row x) :=
      List.map_congr_left (fun x _ => sixelByte_add_63 mem w row x)
    simp [hmap]
  · rw [sixelRows, bandStarts, if_neg hlt, if_neg hlt, List.flatMap_nil]
termination_by h - row
decreasing_by omega

/-- C9: with `border = false` the pixel encoder emits, for each band row
`0, 6, …` (step 6 while below the height), one byte per column equal to
63 plus the bit-packed nonzero test of the six window cells of that
column (out-of-range cells read as zero), followed by `$-`; and the
24-word example window of width 4 and height 6 encodes to the ASCII
string `]DD]$-`. -/
theorem c9_pixel_encoder (mem : List Nat) (w h : Nat) :
    sixelFrom mem w h false =
      (bandStarts h 0).flatMap (fun row =>
        (List.range w).map (fun x => sixelByteSpec mem w row x) ++
          [36, 45]) ∧
    sixelFrom [0, 1, 1, 0, 1, 0, 0, 1, 1, 1, 1, 1, 1, 0, 0, 1, 1, 0, 0, 1,
        0, 0, 0, 0] 4 6 false =
      "]DD]$-".toList.map Char.toNat := by
  constructor
  · unfold sixelFrom
    simp [sixelRows_false_eq]
  · simp [sixelFrom, sixelRows]
    decide

end Chifir
